/-
  Verification of koishi-plugin-lex-ninjutsu (src/index.tsx "LexNinjutsu",
  src/pinyin.ts "NinjutsuPinyin") against its natural-language specification.

  Shallow embedding conventions:
  * JavaScript strings are modelled as Lean `String` (sequences of Unicode
    code points).  All concrete inputs in this file stay inside the BMP, so
    UTF-16 code-unit indexing and code-point indexing agree.
  * The koishi Entry Store (`ctx.database`) is modelled as a
    `List NinjutsuInfo` in store order; `select.where(eq).execute` is
    `List.filter`, `.limit(n)` is `List.take n`.
  * The optional phonetic capability (`ctx.pinyin` / the `get-pinyin` bail)
    is a `Bool` flag `phonAvail` plus a function `py : String → String`.
-/
import Mathlib

set_option linter.unusedVariables false
set_option maxRecDepth 16384

/-- The maximal ranges of code points whose Unicode general category is
Punctuation (Pc, Pd, Ps, Pe, Pi, Pf, Po), Symbol (Sm, Sc, Sk, So) or
Separator (Zs, Zl, Zp) — the set matched by the character class
`\p{P}|\p{S}|\p{Z}` of the source's `removePunctuation` regex — generated
from the Unicode 14.0.0 character database. -/
def pszRanges : List (Nat × Nat) := [
  (0x20, 0x2F), (0x3A, 0x40), (0x5B, 0x60), (0x7B, 0x7E), (0xA0, 0xA9),
  (0xAB, 0xAC), (0xAE, 0xB1), (0xB4, 0xB4), (0xB6, 0xB8), (0xBB, 0xBB),
  (0xBF, 0xBF), (0xD7, 0xD7), (0xF7, 0xF7), (0x2C2, 0x2C5), (0x2D2, 0x2DF),
  (0x2E5, 0x2EB), (0x2ED, 0x2ED), (0x2EF, 0x2FF), (0x375, 0x375), (0x37E, 0x37E),
  (0x384, 0x385), (0x387, 0x387), (0x3F6, 0x3F6), (0x482, 0x482), (0x55A, 0x55F),
  (0x589, 0x58A), (0x58D, 0x58F), (0x5BE, 0x5BE), (0x5C0, 0x5C0), (0x5C3, 0x5C3),
  (0x5C6, 0x5C6), (0x5F3, 0x5F4), (0x606, 0x60F), (0x61B, 0x61B), (0x61D, 0x61F),
  (0x66A, 0x66D), (0x6D4, 0x6D4), (0x6DE, 0x6DE), (0x6E9, 0x6E9), (0x6FD, 0x6FE),
  (0x700, 0x70D), (0x7F6, 0x7F9), (0x7FE, 0x7FF), (0x830, 0x83E), (0x85E, 0x85E),
  (0x888, 0x888), (0x964, 0x965), (0x970, 0x970), (0x9F2, 0x9F3), (0x9FA, 0x9FB),
  (0x9FD, 0x9FD), (0xA76, 0xA76), (0xAF0, 0xAF1), (0xB70, 0xB70), (0xBF3, 0xBFA),
  (0xC77, 0xC77), (0xC7F, 0xC7F), (0xC84, 0xC84), (0xD4F, 0xD4F), (0xD79, 0xD79),
  (0xDF4, 0xDF4), (0xE3F, 0xE3F), (0xE4F, 0xE4F), (0xE5A, 0xE5B), (0xF01, 0xF17),
  (0xF1A, 0xF1F), (0xF34, 0xF34), (0xF36, 0xF36), (0xF38, 0xF38), (0xF3A, 0xF3D),
  (0xF85, 0xF85), (0xFBE, 0xFC5), (0xFC7, 0xFCC), (0xFCE, 0xFDA), (0x104A, 0x104F),
  (0x109E, 0x109F), (0x10FB, 0x10FB), (0x1360, 0x1368), (0x1390, 0x1399), (0x1400, 0x1400),
  (0x166D, 0x166E), (0x1680, 0x1680), (0x169B, 0x169C), (0x16EB, 0x16ED), (0x1735, 0x1736),
  (0x17D4, 0x17D6), (0x17D8, 0x17DB), (0x1800, 0x180A), (0x1940, 0x1940), (0x1944, 0x1945),
  (0x19DE, 0x19FF), (0x1A1E, 0x1A1F), (0x1AA0, 0x1AA6), (0x1AA8, 0x1AAD), (0x1B5A, 0x1B6A),
  (0x1B74, 0x1B7E), (0x1BFC, 0x1BFF), (0x1C3B, 0x1C3F), (0x1C7E, 0x1C7F), (0x1CC0, 0x1CC7),
  (0x1CD3, 0x1CD3), (0x1FBD, 0x1FBD), (0x1FBF, 0x1FC1), (0x1FCD, 0x1FCF), (0x1FDD, 0x1FDF),
  (0x1FED, 0x1FEF), (0x1FFD, 0x1FFE), (0x2000, 0x200A), (0x2010, 0x2029), (0x202F, 0x205F),
  (0x207A, 0x207E), (0x208A, 0x208E), (0x20A0, 0x20C0), (0x2100, 0x2101), (0x2103, 0x2106),
  (0x2108, 0x2109), (0x2114, 0x2114), (0x2116, 0x2118), (0x211E, 0x2123), (0x2125, 0x2125),
  (0x2127, 0x2127), (0x2129, 0x2129), (0x212E, 0x212E), (0x213A, 0x213B), (0x2140, 0x2144),
  (0x214A, 0x214D), (0x214F, 0x214F), (0x218A, 0x218B), (0x2190, 0x2426), (0x2440, 0x244A),
  (0x249C, 0x24E9), (0x2500, 0x2775), (0x2794, 0x2B73), (0x2B76, 0x2B95), (0x2B97, 0x2BFF),
  (0x2CE5, 0x2CEA), (0x2CF9, 0x2CFC), (0x2CFE, 0x2CFF), (0x2D70, 0x2D70), (0x2E00, 0x2E2E),
  (0x2E30, 0x2E5D), (0x2E80, 0x2E99), (0x2E9B, 0x2EF3), (0x2F00, 0x2FD5), (0x2FF0, 0x2FFB),
  (0x3000, 0x3004), (0x3008, 0x3020), (0x3030, 0x3030), (0x3036, 0x3037), (0x303D, 0x303F),
  (0x309B, 0x309C), (0x30A0, 0x30A0), (0x30FB, 0x30FB), (0x3190, 0x3191), (0x3196, 0x319F),
  (0x31C0, 0x31E3), (0x3200, 0x321E), (0x322A, 0x3247), (0x3250, 0x3250), (0x3260, 0x327F),
  (0x328A, 0x32B0), (0x32C0, 0x33FF), (0x4DC0, 0x4DFF), (0xA490, 0xA4C6), (0xA4FE, 0xA4FF),
  (0xA60D, 0xA60F), (0xA673, 0xA673), (0xA67E, 0xA67E), (0xA6F2, 0xA6F7), (0xA700, 0xA716),
  (0xA720, 0xA721), (0xA789, 0xA78A), (0xA828, 0xA82B), (0xA836, 0xA839), (0xA874, 0xA877),
  (0xA8CE, 0xA8CF), (0xA8F8, 0xA8FA), (0xA8FC, 0xA8FC), (0xA92E, 0xA92F), (0xA95F, 0xA95F),
  (0xA9C1, 0xA9CD), (0xA9DE, 0xA9DF), (0xAA5C, 0xAA5F), (0xAA77, 0xAA79), (0xAADE, 0xAADF),
  (0xAAF0, 0xAAF1), (0xAB5B, 0xAB5B), (0xAB6A, 0xAB6B), (0xABEB, 0xABEB), (0xFB29, 0xFB29),
  (0xFBB2, 0xFBC2), (0xFD3E, 0xFD4F), (0xFDCF, 0xFDCF), (0xFDFC, 0xFDFF), (0xFE10, 0xFE19),
  (0xFE30, 0xFE52), (0xFE54, 0xFE66), (0xFE68, 0xFE6B), (0xFF01, 0xFF0F), (0xFF1A, 0xFF20),
  (0xFF3B, 0xFF40), (0xFF5B, 0xFF65), (0xFFE0, 0xFFE6), (0xFFE8, 0xFFEE), (0xFFFC, 0xFFFD),
  (0x10100, 0x10102), (0x10137, 0x1013F), (0x10179, 0x10189), (0x1018C, 0x1018E), (0x10190, 0x1019C),
  (0x101A0, 0x101A0), (0x101D0, 0x101FC), (0x1039F, 0x1039F), (0x103D0, 0x103D0), (0x1056F, 0x1056F),
  (0x10857, 0x10857), (0x10877, 0x10878), (0x1091F, 0x1091F), (0x1093F, 0x1093F), (0x10A50, 0x10A58),
  (0x10A7F, 0x10A7F), (0x10AC8, 0x10AC8), (0x10AF0, 0x10AF6), (0x10B39, 0x10B3F), (0x10B99, 0x10B9C),
  (0x10EAD, 0x10EAD), (0x10F55, 0x10F59), (0x10F86, 0x10F89), (0x11047, 0x1104D), (0x110BB, 0x110BC),
  (0x110BE, 0x110C1), (0x11140, 0x11143), (0x11174, 0x11175), (0x111C5, 0x111C8), (0x111CD, 0x111CD),
  (0x111DB, 0x111DB), (0x111DD, 0x111DF), (0x11238, 0x1123D), (0x112A9, 0x112A9), (0x1144B, 0x1144F),
  (0x1145A, 0x1145B), (0x1145D, 0x1145D), (0x114C6, 0x114C6), (0x115C1, 0x115D7), (0x11641, 0x11643),
  (0x11660, 0x1166C), (0x116B9, 0x116B9), (0x1173C, 0x1173F), (0x1183B, 0x1183B), (0x11944, 0x11946),
  (0x119E2, 0x119E2), (0x11A3F, 0x11A46), (0x11A9A, 0x11A9C), (0x11A9E, 0x11AA2), (0x11C41, 0x11C45),
  (0x11C70, 0x11C71), (0x11EF7, 0x11EF8), (0x11FD5, 0x11FF1), (0x11FFF, 0x11FFF), (0x12470, 0x12474),
  (0x12FF1, 0x12FF2), (0x16A6E, 0x16A6F), (0x16AF5, 0x16AF5), (0x16B37, 0x16B3F), (0x16B44, 0x16B45),
  (0x16E97, 0x16E9A), (0x16FE2, 0x16FE2), (0x1BC9C, 0x1BC9C), (0x1BC9F, 0x1BC9F), (0x1CF50, 0x1CFC3),
  (0x1D000, 0x1D0F5), (0x1D100, 0x1D126), (0x1D129, 0x1D164), (0x1D16A, 0x1D16C), (0x1D183, 0x1D184),
  (0x1D18C, 0x1D1A9), (0x1D1AE, 0x1D1EA), (0x1D200, 0x1D241), (0x1D245, 0x1D245), (0x1D300, 0x1D356),
  (0x1D6C1, 0x1D6C1), (0x1D6DB, 0x1D6DB), (0x1D6FB, 0x1D6FB), (0x1D715, 0x1D715), (0x1D735, 0x1D735),
  (0x1D74F, 0x1D74F), (0x1D76F, 0x1D76F), (0x1D789, 0x1D789), (0x1D7A9, 0x1D7A9), (0x1D7C3, 0x1D7C3),
  (0x1D800, 0x1D9FF), (0x1DA37, 0x1DA3A), (0x1DA6D, 0x1DA74), (0x1DA76, 0x1DA83), (0x1DA85, 0x1DA8B),
  (0x1E14F, 0x1E14F), (0x1E2FF, 0x1E2FF), (0x1E95E, 0x1E95F), (0x1ECAC, 0x1ECAC), (0x1ECB0, 0x1ECB0),
  (0x1ED2E, 0x1ED2E), (0x1EEF0, 0x1EEF1), (0x1F000, 0x1F02B), (0x1F030, 0x1F093), (0x1F0A0, 0x1F0AE),
  (0x1F0B1, 0x1F0BF), (0x1F0C1, 0x1F0CF), (0x1F0D1, 0x1F0F5), (0x1F10D, 0x1F1AD), (0x1F1E6, 0x1F202),
  (0x1F210, 0x1F23B), (0x1F240, 0x1F248), (0x1F250, 0x1F251), (0x1F260, 0x1F265), (0x1F300, 0x1F6D7),
  (0x1F6DD, 0x1F6EC), (0x1F6F0, 0x1F6FC), (0x1F700, 0x1F773), (0x1F780, 0x1F7D8), (0x1F7E0, 0x1F7EB),
  (0x1F7F0, 0x1F7F0), (0x1F800, 0x1F80B), (0x1F810, 0x1F847), (0x1F850, 0x1F859), (0x1F860, 0x1F887),
  (0x1F890, 0x1F8AD), (0x1F8B0, 0x1F8B1), (0x1F900, 0x1FA53), (0x1FA60, 0x1FA6D), (0x1FA70, 0x1FA74),
  (0x1FA78, 0x1FA7C), (0x1FA80, 0x1FA86), (0x1FA90, 0x1FAAC), (0x1FAB0, 0x1FABA), (0x1FAC0, 0x1FAC5),
  (0x1FAD0, 0x1FAD9), (0x1FAE0, 0x1FAE7), (0x1FAF0, 0x1FAF6), (0x1FB00, 0x1FB92), (0x1FB94, 0x1FBCA)]

/-- Membership in the character class `\p{P}|\p{S}|\p{Z}` (see `pszRanges`).
Control characters such as tab U+0009 and newline U+000A are in category Cc
and are matched by none of `\p{P}`, `\p{S}`, `\p{Z}`. -/
def unicodePSZ (c : Char) : Bool :=
  pszRanges.any (fun p => p.1 ≤ c.toNat && c.toNat ≤ p.2)

/-- `function removePunctuation(s) { return s.replaceAll(/\p{P}|\p{S}|\p{Z}/ug, ''); }`
Replacing every single-code-point match of the class by the empty string is
filtering the class out of the code-point sequence. -/
def removePunctuation (s : String) : String :=
  ⟨s.data.filter (fun c => !unicodePSZ c)⟩

/-- Row type of the `ninjutsu` table (interface `NinjutsuInfo`).  The `id`
column is `'unsigned'`; all other columns are `'string'`. -/
structure NinjutsuInfo where
  id : Nat
  name : String
  description : String
  nameNoPunctuation : String
  namePinyin : String
deriving DecidableEq, Repr

/-- `enum MatchLevel { Strict, Normal, Homophone }`. -/
inductive MatchLevel where
  | Strict
  | Normal
  | Homophone
deriving DecidableEq, BEq, Repr

instance : LawfulBEq MatchLevel where
  eq_of_beq := by intro a b h; cases a <;> cases b <;> first | rfl | exact absurd h (by decide)
  rfl := by intro a; cases a <;> rfl

/-- Numeric value of a `MatchLevel` (TypeScript enums number their members
from 0 in declaration order). -/
def MatchLevel.toIdx : MatchLevel → Nat
  | .Strict => 0
  | .Normal => 1
  | .Homophone => 2

/-- The plugin configuration (`LexNinjutsu.Config`). -/
structure Config where
  sourceUrl : String
  matchLevel : MatchLevel
  searchLimit : Nat
  descriptionPreviewLimit : Nat
  searchOnFailed : Bool

/-- Result of `getMatchInfo`: the key transform applied to the query and the
queried column, the column name realised as a field accessor. -/
structure MatchInfo where
  getKeyword : String → String
  propertyName : NinjutsuInfo → String

/-- `getMatchInfo(matchLevel)` from `LexNinjutsu`.  When the level is
`Homophone` and the pinyin capability is absent, the level is first
downgraded to `Normal`; then the transform / column pair is looked up. -/
def getMatchInfo (phonAvail : Bool) (py : String → String)
    (matchLevel : MatchLevel) : MatchInfo :=
  let matchLevel :=
    if matchLevel == MatchLevel.Homophone && !phonAvail then MatchLevel.Normal
    else matchLevel
  match matchLevel with
  | .Strict => ⟨fun name => name, fun r => r.name⟩
  | .Normal => ⟨fun name => removePunctuation name, fun r => r.nameNoPunctuation⟩
  | .Homophone => ⟨fun name => py (removePunctuation name), fun r => r.namePinyin⟩

/-- The levels visited by `for(let level=Strict; level<=this.cfg.matchLevel; level++)`. -/
def levelsUpTo : MatchLevel → List MatchLevel
  | .Strict => [.Strict]
  | .Normal => [.Strict, .Normal]
  | .Homophone => [.Strict, .Normal, .Homophone]

/-- `tryGetNinjutsuAtLevel(name, matchLevel)`: exact-match query
(`$.eq(row[propertyName], keyword)`) against the store; `res[0]` is the head
of the result list (`undefined`, i.e. `none`, when empty). -/
def tryGetNinjutsuAtLevel (phonAvail : Bool) (py : String → String)
    (db : List NinjutsuInfo) (name : String) (matchLevel : MatchLevel) :
    Option NinjutsuInfo :=
  let mi := getMatchInfo phonAvail py matchLevel
  let keyword := mi.getKeyword name
  (db.filter (fun row => mi.propertyName row == keyword)).head?

/-- `tryGetNinjutsu(name)`: try each level from `Strict` up to
`cfg.matchLevel`, returning the first defined result. -/
def tryGetNinjutsu (phonAvail : Bool) (py : String → String) (cfg : Config)
    (db : List NinjutsuInfo) (name : String) : Option NinjutsuInfo :=
  (levelsUpTo cfg.matchLevel).findSome?
    (fun level => tryGetNinjutsuAtLevel phonAvail py db name level)

/-- C1: with the phonetic capability unavailable, the `Homophone` strategy is
exactly the `Normal` strategy: same transform (`removePunctuation`) and same
queried column (`nameNoPunctuation`); the tier is downgraded, not skipped. -/
theorem homophone_downgrade_matches_normal_strategy
    (py : String → String) (q : String) (row : NinjutsuInfo) :
    getMatchInfo false py MatchLevel.Homophone
      = getMatchInfo false py MatchLevel.Normal ∧
    (getMatchInfo false py MatchLevel.Homophone).getKeyword q
      = removePunctuation q ∧
    (getMatchInfo false py MatchLevel.Homophone).propertyName row
      = row.nameNoPunctuation :=
  ⟨rfl, rfl, rfl⟩

/-- C6: with the phonetic capability unavailable, resolving with
`matchLevel = Homophone` is observationally identical to resolving with
`matchLevel = Normal`. -/
theorem resolve_homophone_eq_normal_when_unavailable
    (py : String → String) (db : List NinjutsuInfo) (name : String)
    (u : String) (sL dL : Nat) (sF : Bool) :
    tryGetNinjutsu false py ⟨u, MatchLevel.Homophone, sL, dL, sF⟩ db name
      = tryGetNinjutsu false py ⟨u, MatchLevel.Normal, sL, dL, sF⟩ db name := by
  have hq : tryGetNinjutsuAtLevel false py db name MatchLevel.Homophone
      = tryGetNinjutsuAtLevel false py db name MatchLevel.Normal := rfl
  show ([MatchLevel.Strict, MatchLevel.Normal, MatchLevel.Homophone].findSome? _)
      = ([MatchLevel.Strict, MatchLevel.Normal].findSome? _)
  cases hS : tryGetNinjutsuAtLevel false py db name MatchLevel.Strict with
  | some v => simp [List.findSome?, hS]
  | none =>
    cases hN : tryGetNinjutsuAtLevel false py db name MatchLevel.Normal with
    | some v => simp [List.findSome?, hS, hN]
    | none => simp [List.findSome?, hS, hN, hq]

/-! ### The search path

`searchNinjutsuAtLevel` interpolates the (transformed) keyword, unescaped,
into a regular expression: `new RegExp(`.*${keyword}.*`)`, and the store
keeps the rows whose column value the regex matches (`$.regex`), capped by
`.limit(limit)`.  The fragment of JavaScript regular expressions that such
patterns can use is embedded below: literal characters, `.` (any character)
and postfix `*`.  Patterns using any other metacharacter are outside the
modelled fragment and parse to `none`; `new RegExp` itself throws on some of
them (for example an unmatched `(`, or a `*` with nothing to repeat). -/

/-- Abstract syntax of the modelled regular-expression fragment. -/
inductive Regex where
  | emp
  | eps
  | chr (c : Char)
  | dot
  | seq (a b : Regex)
  | alt (a b : Regex)
  | star (a : Regex)
deriving DecidableEq, Repr

/-- Does the regex accept the empty string? -/
def Regex.nullable : Regex → Bool
  | .emp => false
  | .eps => true
  | .chr _ => false
  | .dot => false
  | .seq a b => a.nullable && b.nullable
  | .alt a b => a.nullable || b.nullable
  | .star _ => true

/-- Brzozowski derivative of a regex by one character. -/
def Regex.deriv : Regex → Char → Regex
  | .emp, _ => .emp
  | .eps, _ => .emp
  | .chr c, x => if x == c then .eps else .emp
  | .dot, _ => .eps
  | .seq a b, x =>
    if a.nullable then .alt (.seq (a.deriv x) b) (b.deriv x)
    else .seq (a.deriv x) b
  | .alt a b, x => .alt (a.deriv x) (b.deriv x)
  | .star a, x => .seq (a.deriv x) (.star a)

/-- Regex matching of a whole character sequence, by repeated derivatives.
For the patterns built here (`.*${keyword}.*`) a whole-string match is
equivalent to the unanchored search performed by `RegExp.prototype.test`. -/
def rmatch (r : Regex) : List Char → Bool
  | [] => r.nullable
  | c :: cs => rmatch (r.deriv c) cs

/-- One regex atom: `.` or a literal character.  Every other JavaScript
metacharacter is outside the modelled fragment. -/
def atomOf (c : Char) : Option Regex :=
  if c == '.' then some Regex.dot
  else if c == '*' || c == '+' || c == '?' || c == '(' || c == ')' ||
      c == '[' || c == ']' || c == '\x7b' || c == '\x7d' || c == '|' ||
      c == '\\' || c == '^' || c == '$' then none
  else some (Regex.chr c)

/-- Parse a concatenation of atoms, each optionally followed by `*`.  A `*`
with no preceding atom is a syntax error (`none`), as in JavaScript. -/
def parseSeq : List Char → Option (List Regex)
  | [] => some []
  | [c] => if c == '*' then none else (atomOf c).map (fun a => [a])
  | c :: d :: rest =>
    if c == '*' then none
    else
      match atomOf c with
      | none => none
      | some a =>
        if d == '*' then (parseSeq rest).map (fun l => Regex.star a :: l)
        else (parseSeq (d :: rest)).map (fun l => a :: l)

/-- Parse a whole pattern string into a regex (`none` models a pattern the
embedding does not cover, including those on which `new RegExp` throws). -/
def parsePattern (s : String) : Option Regex :=
  (parseSeq s.data).map (fun l => l.foldr Regex.seq Regex.eps)

/-- `searchNinjutsuAtLevel(name, limit, matchLevel)`: transform the keyword,
build `new RegExp(`.*${keyword}.*`)` from it unescaped, and keep the first
`limit` store rows whose column matches the regex. -/
def searchNinjutsuAtLevel (phonAvail : Bool) (py : String → String)
    (db : List NinjutsuInfo) (name : String) (limit : Nat)
    (matchLevel : MatchLevel) : Option (List NinjutsuInfo) :=
  let mi := getMatchInfo phonAvail py matchLevel
  let keyword := mi.getKeyword name
  match parsePattern (".*" ++ keyword ++ ".*") with
  | none => none
  | some re =>
    some ((db.filter (fun row => rmatch re (mi.propertyName row).data)).take limit)

/-- The Entry Store query the specification describes for search: rows whose
column contains the keyword as a contiguous, case-sensitive substring,
unanchored on both sides, capped at `limit` rows (spec §4.4 step 2 / §6
`findSubstring`).  Stated from the spec's words, for comparison with
`searchNinjutsuAtLevel`. -/
def hasSubstring (hay needle : String) : Bool :=
  (List.range (hay.data.length + 1)).any
    (fun i => (hay.data.drop i).take needle.data.length == needle.data)

/-- Spec-side substring query (see `hasSubstring`). -/
def specSubstringQuery (field : NinjutsuInfo → String) (key : String)
    (limit : Nat) (db : List NinjutsuInfo) : List NinjutsuInfo :=
  (db.filter (fun r => hasSubstring (field r) key)).take limit

/-! ### The aggregation of `searchNinjutsu`

The source accumulates per-level results in plain objects keyed by the
numeric `id` (`cur[ninjutsu.id] = ninjutsu`) and chains them with
`Object.setPrototypeOf(prev, cur)`, so that `for(let id in res)` walks the
`Strict` object's own keys first, then each looser level's keys that are not
shadowed by a stricter level.  Per the ECMAScript enumeration order, the
integer-like keys of each object are visited in ascending numeric order
(not insertion order), and a key already visited on an earlier object of
the chain is skipped. -/

/-- The own integer keys of one level's accumulator object, in the order
`for...in` visits them: ascending numeric order, each id once. -/
def sortedIds (rows : List NinjutsuInfo) : List Nat :=
  ((rows.map (fun r => r.id)).dedup).insertionSort (· ≤ ·)

/-- The value stored under key `i` of one level's accumulator object: the
last row of the level's result list with that id (later assignments to
`cur[id]` overwrite earlier ones). -/
def objVal (rows : List NinjutsuInfo) (i : Nat) : Option NinjutsuInfo :=
  rows.reverse.find? (fun r => r.id == i)

/-- `for(let id in res)` over the prototype chain of per-level accumulator
objects: visit each level in chain order, enumerating its keys in ascending
order and skipping keys seen on an earlier level. -/
def chainIterAux : List (List NinjutsuInfo) → List Nat → List NinjutsuInfo
  | [], _ => []
  | rows :: rest, seen =>
    ((sortedIds rows).filter (fun i => !seen.contains i)).filterMap (objVal rows)
      ++ chainIterAux rest (seen ++ rows.map (fun r => r.id))

/-- The full iteration sequence of `for(let id in res)`. -/
def chainIter (ls : List (List NinjutsuInfo)) : List NinjutsuInfo :=
  chainIterAux ls []

/-- Index of the first (strictest) level whose query result contains the id:
the level whose accumulator object owns the id's entry in the chain. -/
def firstIdx (i : Nat) : List (List NinjutsuInfo) → Nat
  | [] => 0
  | rows :: rest => if rows.any (fun r => r.id == i) then 0 else firstIdx i rest + 1

/-- Run `searchNinjutsuAtLevel` for every level of the loop, failing if any
level's query fails. -/
def queryAllLevels (phonAvail : Bool) (py : String → String)
    (db : List NinjutsuInfo) (name : String) (limit : Nat) :
    List MatchLevel → Option (List (List NinjutsuInfo))
  | [] => some []
  | lv :: lvs =>
    match searchNinjutsuAtLevel phonAvail py db name limit lv,
        queryAllLevels phonAvail py db name limit lvs with
    | some q, some qs => some (q :: qs)
    | _, _ => none

/-- The sequence of entries `searchNinjutsu`'s final `for(let id in res)`
loop iterates over (before the `limit` cap is applied to rendering).
`limit ??= this.cfg.searchLimit` resolves the option's default. -/
def searchIteration (phonAvail : Bool) (py : String → String) (cfg : Config)
    (db : List NinjutsuInfo) (limitOpt : Option Nat) (name : String) :
    Option (List NinjutsuInfo) :=
  let limit := limitOpt.getD cfg.searchLimit
  (queryAllLevels phonAvail py db name limit (levelsUpTo cfg.matchLevel)).map
    chainIter

/-- `searchNinjutsu(session, limit, keyword)`, observationally: the list of
entries rendered into the message (the loop appends an item only while
`count <= limit`) together with the final value of `count` (the number the
loop counts across the whole iteration sequence). -/
def searchNinjutsu (phonAvail : Bool) (py : String → String) (cfg : Config)
    (db : List NinjutsuInfo) (limitOpt : Option Nat) (name : String) :
    Option (List NinjutsuInfo × Nat) :=
  let limit := limitOpt.getD cfg.searchLimit
  (searchIteration phonAvail py cfg db limitOpt name).map
    (fun seq => (seq.take limit, seq.length))

/-! ### Description preview -/

/-- `description.replaceAll('\n', ' ')`. -/
def newlineToSpace (s : String) : String :=
  ⟨s.data.map (fun c => if c == '\n' then ' ' else c)⟩

/-- `getDescriptionPreview(description)` with `limit = cfg.descriptionPreviewLimit`:
`if(!limit)` return unchanged; otherwise replace newlines by spaces, return
whole if it fits, else the first `limit` characters plus `'…'`. -/
def getDescriptionPreview (limit : Nat) (description : String) : String :=
  if limit = 0 then description
  else
    let d := newlineToSpace description
    if d.length ≤ limit then d
    else ⟨(d.data.take limit) ++ ['…']⟩

/-! ### Catalog ingest and the phonetic backfill

The Entry Store collaborator's `upsert` follows the koishi database
contract: each supplied row updates, by primary key `id`, exactly the
fields it lists on the existing row with that id, or creates the row when
the id is absent, the unlisted string columns starting as `''`. -/

/-- One remote catalog row (`NinjutsuInfoSourceData`). -/
structure NinjutsuSourceRow where
  id : Nat
  name : String
  description : String
deriving DecidableEq, Repr

/-- The object literal built by `toNinjutsuInfo`: `{ id, name, description,
nameNoPunctuation }` — note the absence of `namePinyin`. -/
structure NinjutsuUpsert where
  id : Nat
  name : String
  description : String
  nameNoPunctuation : String
deriving DecidableEq, Repr

/-- `toNinjutsuInfo({id, name, description})`. -/
def toNinjutsuInfo (s : NinjutsuSourceRow) : NinjutsuUpsert :=
  ⟨s.id, s.name, s.description, removePunctuation s.name⟩

/-- Apply a partial upsert row to a stored row with the same id: the listed
fields are overwritten, `namePinyin` is left as it was. -/
def patchRow (u : NinjutsuUpsert) (r : NinjutsuInfo) : NinjutsuInfo :=
  ⟨u.id, u.name, u.description, u.nameNoPunctuation, r.namePinyin⟩

/-- A partial upsert row materialised as a fresh stored row: the unlisted
`namePinyin` column starts as the empty string. -/
def newRow (u : NinjutsuUpsert) : NinjutsuInfo :=
  ⟨u.id, u.name, u.description, u.nameNoPunctuation, ""⟩

/-- Upsert of one partial row (update by id, or create). -/
def upsertPartialOne (u : NinjutsuUpsert) (db : List NinjutsuInfo) :
    List NinjutsuInfo :=
  if db.any (fun r => r.id == u.id) then
    db.map (fun r => if r.id == u.id then patchRow u r else r)
  else db ++ [newRow u]

/-- `database.upsert('ninjutsu', upsert)` for a list of partial rows. -/
def upsertPartialMany (us : List NinjutsuUpsert) (db : List NinjutsuInfo) :
    List NinjutsuInfo :=
  us.foldl (fun d u => upsertPartialOne u d) db

/-- `updateDatabase(session)` restricted to its effect on the catalog: the
fetched source rows (the HTTP collaborator's answer, a parameter here) are
mapped through `toNinjutsuInfo` and upserted. -/
def updateDatabase (src : List NinjutsuSourceRow) (db : List NinjutsuInfo) :
    List NinjutsuInfo :=
  upsertPartialMany (src.map toNinjutsuInfo) db

/-- Upsert of one full row (update by id, or create). -/
def upsertFullOne (u : NinjutsuInfo) (db : List NinjutsuInfo) :
    List NinjutsuInfo :=
  if db.any (fun r => r.id == u.id) then
    db.map (fun r => if r.id == u.id then u else r)
  else db ++ [u]

/-- `database.upsert('ninjutsu', data)` for a list of full rows. -/
def upsertFullMany (us : List NinjutsuInfo) (db : List NinjutsuInfo) :
    List NinjutsuInfo :=
  us.foldl (fun d u => upsertFullOne u d) db

/-- `NinjutsuPinyin.updateDatabasePinyin()`: select the rows whose
`namePinyin` is `''`, set `namePinyin` to the pinyin of `nameNoPunctuation`
on each, and upsert them back. -/
def updateDatabasePinyin (py : String → String) (db : List NinjutsuInfo) :
    List NinjutsuInfo :=
  let data := (db.filter (fun r => r.namePinyin == "")).map
    (fun r => { r with namePinyin := py r.nameNoPunctuation })
  upsertFullMany data db

/-- `NinjutsuPinyin.getPinyin(s)`: `ctx.pinyin.pinyin(s, {style: 0}).join('').toLowerCase()`.
The pinyin library itself is an external collaborator, a parameter here. -/
def getPinyin (pinyinLib : String → List String) (s : String) : String :=
  ⟨(String.join (pinyinLib s)).data.map Char.toLower⟩

/-- What one run of the backfill does to a single row (derived
characterisation used to state the backfill's frame property). -/
def backfillRow (py : String → String) (r : NinjutsuInfo) : NinjutsuInfo :=
  if r.namePinyin = "" then { r with namePinyin := py r.nameNoPunctuation }
  else r

/-! ### C7: the normalizer -/

/-- C7 (counterexample): the claim says `removePunctuation` removes every
whitespace code point, tab `U+0009` and newline `U+000A` included, which
would turn `"a\tb\n"` into `"ab"`.  The source regex class
`\p{P}|\p{S}|\p{Z}` does not match control characters, so both survive. -/
theorem removePunctuation_keeps_control_whitespace_cex :
    removePunctuation "a\tb\n" = "a\tb\n" ∧
    removePunctuation "a\tb\n" ≠ "ab" := by decide

/-- C7 (amended): `removePunctuation` removes exactly the code points of the
regex class `\p{P}|\p{S}|\p{Z}` — every code point of Unicode categories P,
S and Z, non-ASCII ones included, and nothing else (occurrence counts of all
other code points are preserved) — preserves the relative order of what
remains (the output code-point sequence is a sublist of the input), and maps
`""` to `""`.  Control whitespace (category Cc) is not in the class and is
kept.  The closed conjuncts exhibit the class at work beyond ASCII: the CJK
middle dot U+30FB and fullwidth `！` U+FF01 are stripped from a CJK name,
and `€` U+20AC and `、` U+3001 are stripped entirely. -/
theorem removePunctuation_filters_psz (s : String) :
    (removePunctuation s).data.Sublist s.data ∧
    (∀ c : Char, (removePunctuation s).data.count c
      = if unicodePSZ c then 0 else s.data.count c) ∧
    removePunctuation "" = "" ∧
    removePunctuation "火遁・豪火球！" = "火遁豪火球" ∧
    removePunctuation "€、" = "" := by
  refine ⟨List.filter_sublist _, fun c => ?_, rfl, by decide, by decide⟩
  show (s.data.filter (fun c => !unicodePSZ c)).count c = _
  by_cases h : unicodePSZ c
  · rw [if_pos h, List.count_eq_zero]
    intro hmem
    have := List.of_mem_filter hmem
    simp [h] at this
  · rw [if_neg h]
    exact List.count_filter (by simp [h])

/-! ### C3: the per-tier substring query -/

/-- C3 (code bug): the transformed keyword is interpolated unescaped into
`new RegExp(`.*${keyword}.*`)`, so the query performs regex matching, not
literal substring matching.  At tier `Strict` with keyword `"a.c"`, the row
named `"abc"` is returned (the `.` matches any character), while `"a.c"` is
not a substring of `"abc"` and the spec's substring query returns nothing. -/
theorem search_regex_injection_bug :
    searchNinjutsuAtLevel false (fun s => s)
      [⟨1, "abc", "", "abc", ""⟩] "a.c" 10 MatchLevel.Strict
      = some [⟨1, "abc", "", "abc", ""⟩] ∧
    hasSubstring "abc" "a.c" = false ∧
    specSubstringQuery (fun r => r.name) "a.c" 10 [⟨1, "abc", "", "abc", ""⟩]
      = [] := by decide

/-! ### C2 and C4 counterexamples -/

/-- C2 (counterexample): within one tier the rendered order is the ascending
numeric order of the ids (ECMAScript integer-key enumeration), not the
store-query discovery order.  The Strict query discovers ids `[2, 1]`, but
the iteration sequence is `[1, 2]`. -/
theorem search_order_not_discovery_cex :
    searchNinjutsuAtLevel false (fun s => s)
      [⟨2, "a", "", "a", ""⟩, ⟨1, "a", "", "a", ""⟩] "a" 10 MatchLevel.Strict
      = some [⟨2, "a", "", "a", ""⟩, ⟨1, "a", "", "a", ""⟩] ∧
    searchIteration false (fun s => s) ⟨"", MatchLevel.Strict, 10, 10, true⟩
      [⟨2, "a", "", "a", ""⟩, ⟨1, "a", "", "a", ""⟩] (some 10) "a"
      = some [⟨1, "a", "", "a", ""⟩, ⟨2, "a", "", "a", ""⟩] ∧
    ([(⟨1, "a", "", "a", ""⟩ : NinjutsuInfo), ⟨2, "a", "", "a", ""⟩]
      ≠ [⟨2, "a", "", "a", ""⟩, ⟨1, "a", "", "a", ""⟩]) := by decide

/-- C4 (counterexample): each tier's store query is capped at `limit`
*before* merging, so the total distinct count does depend on `limit`:
with two matching rows the count is `1` under `limit = 1` but `2` under
`limit = 2`. -/
theorem search_count_depends_on_limit_cex :
    searchNinjutsu false (fun s => s) ⟨"", MatchLevel.Strict, 10, 10, true⟩
      [⟨1, "b", "", "b", ""⟩, ⟨2, "b", "", "b", ""⟩] (some 1) "b"
      = some ([⟨1, "b", "", "b", ""⟩], 1) ∧
    searchNinjutsu false (fun s => s) ⟨"", MatchLevel.Strict, 10, 10, true⟩
      [⟨1, "b", "", "b", ""⟩, ⟨2, "b", "", "b", ""⟩] (some 2) "b"
      = some ([⟨1, "b", "", "b", ""⟩, ⟨2, "b", "", "b", ""⟩], 2) ∧
    (1 : Nat) ≠ 2 := by decide

/-! ### C8 and C9 counterexamples -/

/-- C8 (counterexample): a catalog refresh that renames entry 1 from `"a"`
to `"b"` upserts `{id, name, description, nameNoPunctuation}` without
`namePinyin`, and the backfill only fills empty fields, so after
refresh + backfill the entry still carries the phonetic key of the old name
(`"ya" = py "a"`), which is neither empty nor `py "b"`. -/
theorem phonetic_stale_after_rename_cex :
    updateDatabasePinyin (getPinyin (fun s => ["y", s]))
      (updateDatabase [⟨1, "b", "d"⟩] [⟨1, "a", "d", "a", "ya"⟩])
      = [⟨1, "b", "d", "b", "ya"⟩] ∧
    getPinyin (fun s => ["y", s]) "a" = "ya" ∧
    ("ya" : String) ≠ "" ∧
    ("ya" : String) ≠ getPinyin (fun s => ["y", s]) "b" := by decide

/-- C9 (counterexample): for an entry whose name is all punctuation,
`nameNoPunctuation` is `""` (note `removePunctuation "!!!" = ""`) and the
pinyin of `""` is `""`, so the backfill writes `""` back and the row still
has an empty `namePinyin` after a successful backfill run. -/
theorem backfill_leaves_empty_cex :
    removePunctuation "!!!" = "" ∧
    getPinyin (fun s => [s]) "" = "" ∧
    updateDatabasePinyin (getPinyin (fun s => [s])) [⟨1, "!!!", "d", "", ""⟩]
      = [⟨1, "!!!", "d", "", ""⟩] ∧
    ((updateDatabasePinyin (getPinyin (fun s => [s]))
        [⟨1, "!!!", "d", "", ""⟩]).any (fun r => r.namePinyin == "")) = true := by
  decide

/-! ### C10: the description preview -/

/-- C10: with `descriptionPreviewLimit = 0` the description is rendered
unchanged (newlines preserved); with a limit `L ≥ 1`, newlines are replaced
by spaces, the result is rendered whole when it fits in `L` characters and
is otherwise cut to exactly its first `L` characters followed by a single
`'…'` (U+2026), so the preview never exceeds `L + 1` characters. -/
theorem description_preview_spec (d : String) (L : Nat) (hL : 1 ≤ L) :
    getDescriptionPreview 0 d = d ∧
    ((newlineToSpace d).length ≤ L →
      getDescriptionPreview L d = newlineToSpace d) ∧
    (L < (newlineToSpace d).length →
      getDescriptionPreview L d = ⟨(newlineToSpace d).data.take L ++ ['…']⟩ ∧
      (getDescriptionPreview L d).length = L + 1) ∧
    (getDescriptionPreview L d).length ≤ L + 1 := by
  have hL0 : ¬ L = 0 := by omega
  have hd : (newlineToSpace d).length = (newlineToSpace d).data.length := rfl
  refine ⟨by simp [getDescriptionPreview], fun h => ?_, fun h => ?_, ?_⟩
  · simp only [getDescriptionPreview, if_neg hL0, if_pos h]
  · have hn : ¬ (newlineToSpace d).length ≤ L := by omega
    refine ⟨by simp only [getDescriptionPreview, if_neg hL0, if_neg hn], ?_⟩
    simp only [getDescriptionPreview, if_neg hL0, if_neg hn]
    show ((newlineToSpace d).data.take L ++ ['…']).length = L + 1
    rw [List.length_append, List.length_take, List.length_singleton]
    omega
  · by_cases h : (newlineToSpace d).length ≤ L
    · simp only [getDescriptionPreview, if_neg hL0, if_pos h]
      omega
    · simp only [getDescriptionPreview, if_neg hL0, if_neg h]
      show ((newlineToSpace d).data.take L ++ ['…']).length ≤ L + 1
      rw [List.length_append, List.length_take, List.length_singleton]
      omega

/-- Concrete instance of `description_preview_spec`: a 7-character
description with an embedded newline, previewed under limit 3. -/
theorem description_preview_spec_witness :
    getDescriptionPreview 3 "ab\ncdef"
      = ⟨(newlineToSpace "ab\ncdef").data.take 3 ++ ['…']⟩ ∧
    (getDescriptionPreview 3 "ab\ncdef").length = 3 + 1 :=
  (description_preview_spec "ab\ncdef" 3 (by decide)).2.2.1 (by decide)

/-! ### C5: first-hit-wins resolution -/

/-- `findSome?` over a list of levels strictly ascending in `toIdx` returns
`f lv` for the first level `lv` with a defined answer. -/
theorem findSome?_first_defined (f : MatchLevel → Option NinjutsuInfo) :
    ∀ L : List MatchLevel,
      L.Pairwise (fun a b => a.toIdx < b.toIdx) →
      ∀ lv ∈ L,
        (∀ lv' ∈ L, lv'.toIdx < lv.toIdx → f lv' = none) →
        f lv ≠ none → L.findSome? f = f lv := by
  intro L
  induction L with
  | nil => intro _ lv h; simp at h
  | cons a L' ih =>
    intro hpw lv hmem hprev hlv
    rcases List.mem_cons.mp hmem with rfl | hmem'
    · cases hfa : f lv with
      | none => exact absurd hfa hlv
      | some v => simp [List.findSome?, hfa]
    · have ha : a.toIdx < lv.toIdx :=
        (List.pairwise_cons.mp hpw).1 lv hmem'
      have hfa : f a = none := hprev a (List.mem_cons_self a L') ha
      rw [List.findSome?_cons_of_isNone _ (by simp [hfa])]
      exact ih (List.pairwise_cons.mp hpw).2 lv hmem'
        (fun lv' h1 h2 => hprev lv' (List.mem_cons_of_mem a h1) h2) hlv

/-- C5: `tryGetNinjutsu` tries the levels of `levelsUpTo cfg.matchLevel` in
ascending strictness order and returns the first level's defined answer —
the head row of the first level whose exact-match query is non-empty —
without any later level influencing the result; it returns `none` exactly
when every permitted level's query is empty. -/
theorem resolve_first_hit_wins (phonAvail : Bool) (py : String → String)
    (cfg : Config) (db : List NinjutsuInfo) (name : String) :
    (tryGetNinjutsu phonAvail py cfg db name = none ↔
      ∀ lv ∈ levelsUpTo cfg.matchLevel,
        tryGetNinjutsuAtLevel phonAvail py db name lv = none) ∧
    (∀ lv ∈ levelsUpTo cfg.matchLevel,
      (∀ lv' ∈ levelsUpTo cfg.matchLevel, lv'.toIdx < lv.toIdx →
        tryGetNinjutsuAtLevel phonAvail py db name lv' = none) →
      tryGetNinjutsuAtLevel phonAvail py db name lv ≠ none →
      tryGetNinjutsu phonAvail py cfg db name
        = tryGetNinjutsuAtLevel phonAvail py db name lv) := by
  constructor
  · exact List.findSome?_eq_none_iff
  · intro lv hmem hprev hlv
    refine findSome?_first_defined _ (levelsUpTo cfg.matchLevel) ?_ lv hmem hprev hlv
    cases cfg.matchLevel <;> decide

/-! ### C2 and C4: structure of the merged iteration sequence -/

/-- The key enumeration of one accumulator object is strictly ascending. -/
theorem sortedIds_pairwise (rows : List NinjutsuInfo) :
    (sortedIds rows).Pairwise (· < ·) := by
  rw [sortedIds]
  have hperm := List.perm_insertionSort (· ≤ ·) ((rows.map (fun r => r.id)).dedup)
  have hs := List.sorted_insertionSort (· ≤ ·) ((rows.map (fun r => r.id)).dedup)
  have hn : (((rows.map (fun r => r.id)).dedup).insertionSort (· ≤ ·)).Nodup :=
    (List.Perm.nodup_iff hperm).mpr (List.nodup_dedup _)
  exact (List.Pairwise.and hs hn).imp (fun h => lt_of_le_of_ne h.1 h.2)

/-- Ids enumerated on one object are exactly the ids of the level's rows. -/
theorem mem_sortedIds {rows : List NinjutsuInfo} {i : Nat} :
    i ∈ sortedIds rows ↔ i ∈ rows.map (fun r => r.id) :=
  ((List.perm_insertionSort (· ≤ ·) _).mem_iff).trans (List.mem_dedup)

/-- The value stored under key `i` has id `i`. -/
theorem objVal_id {rows : List NinjutsuInfo} {i : Nat} {e : NinjutsuInfo}
    (h : objVal rows i = some e) : e.id = i := by
  have := List.find?_some h
  simpa using this

/-- Looked-up values inherit the strict ordering of their keys. -/
theorem pairwise_ids_filterMap (rows : List NinjutsuInfo) (l : List Nat)
    (hpw : l.Pairwise (· < ·)) :
    (l.filterMap (objVal rows)).Pairwise (fun a b => a.id < b.id) := by
  refine List.Pairwise.filterMap (objVal rows) ?_ hpw
  intro i j hij a ha b hb
  rw [objVal_id (Option.mem_def.mp ha), objVal_id (Option.mem_def.mp hb)]
  exact hij

/-- Elements produced by the head level's enumeration: their id is owned by
that level and was not seen earlier. -/
theorem mem_headBucket {rows : List NinjutsuInfo} {seen : List Nat}
    {e : NinjutsuInfo}
    (h : e ∈ ((sortedIds rows).filter (fun i => !seen.contains i)).filterMap
      (objVal rows)) :
    (∃ r ∈ rows, r.id = e.id) ∧ e.id ∉ seen := by
  rcases List.mem_filterMap.mp h with ⟨i, hi, hv⟩
  have hei : e.id = i := objVal_id hv
  have hi' := List.mem_filter.mp hi
  have hids : i ∈ rows.map (fun r => r.id) := mem_sortedIds.mp hi'.1
  rcases List.mem_map.mp hids with ⟨r, hr, hri⟩
  refine ⟨⟨r, hr, by rw [hri, hei]⟩, ?_⟩
  rw [hei]
  simpa using hi'.2

/-- Every element of the chain iteration has an id matched at some level of
the chain and not seen before the chain started. -/
theorem mem_chainIterAux :
    ∀ (ls : List (List NinjutsuInfo)) (seen : List Nat) (e : NinjutsuInfo),
      e ∈ chainIterAux ls seen →
      e.id ∉ seen ∧ ∃ rows ∈ ls, ∃ r ∈ rows, r.id = e.id := by
  intro ls
  induction ls with
  | nil => intro seen e h; simp [chainIterAux] at h
  | cons rows rest ih =>
    intro seen e h
    rw [chainIterAux] at h
    rcases List.mem_append.mp h with h1 | h2
    · rcases mem_headBucket h1 with ⟨hex, hns⟩
      exact ⟨hns, rows, List.mem_cons_self _ _, hex⟩
    · rcases ih (seen ++ rows.map (fun r => r.id)) e h2 with ⟨hn, rows', hmem', hex⟩
      exact ⟨fun hc => hn (List.mem_append.mpr (Or.inl hc)),
        rows', List.mem_cons_of_mem _ hmem', hex⟩

/-- `firstIdx` at a level that owns the id. -/
theorem firstIdx_zero {rows : List NinjutsuInfo} {rest : List (List NinjutsuInfo)}
    {i : Nat} (h : ∃ r ∈ rows, r.id = i) :
    firstIdx i (rows :: rest) = 0 := by
  rcases h with ⟨r, hr, hri⟩
  simp only [firstIdx]
  rw [if_pos]
  exact List.any_eq_true.mpr ⟨r, hr, by simp [hri]⟩

/-- `firstIdx` at a level that does not own the id. -/
theorem firstIdx_succ {rows : List NinjutsuInfo} {rest : List (List NinjutsuInfo)}
    {i : Nat} (h : ¬ ∃ r ∈ rows, r.id = i) :
    firstIdx i (rows :: rest) = firstIdx i rest + 1 := by
  simp only [firstIdx]
  rw [if_neg]
  intro hc
  rcases List.any_eq_true.mp hc with ⟨r, hr, hri⟩
  exact h ⟨r, hr, by simpa using hri⟩

/-- The chain iteration is strictly sorted by (owning level, id). -/
theorem chainIterAux_pairwise :
    ∀ (ls : List (List NinjutsuInfo)) (seen : List Nat),
      (chainIterAux ls seen).Pairwise (fun a b =>
        firstIdx a.id ls < firstIdx b.id ls ∨
        (firstIdx a.id ls = firstIdx b.id ls ∧ a.id < b.id)) := by
  intro ls
  induction ls with
  | nil => intro seen; simp [chainIterAux]
  | cons rows rest ih =>
    intro seen
    rw [chainIterAux, List.pairwise_append]
    refine ⟨?_, ?_, ?_⟩
    · -- within the head level: both ids owned by it, ascending ids
      have h2 := pairwise_ids_filterMap rows
        ((sortedIds rows).filter (fun i => !seen.contains i))
        ((sortedIds_pairwise rows).filter (fun i => !seen.contains i))
      refine List.Pairwise.imp_of_mem ?_ h2
      intro a b ha hb hab
      have h0a := @firstIdx_zero _ rest _ (mem_headBucket ha).1
      have h0b := @firstIdx_zero _ rest _ (mem_headBucket hb).1
      exact Or.inr ⟨by rw [h0a, h0b], hab⟩
    · -- within the tail of the chain: shift the level index by one
      refine List.Pairwise.imp_of_mem ?_ (ih (seen ++ rows.map (fun r => r.id)))
      intro a b ha hb hab
      have hna : ¬ ∃ r ∈ rows, r.id = a.id := by
        rcases mem_chainIterAux _ _ _ ha with ⟨hn, _⟩
        intro ⟨r, hr, hri⟩
        exact hn (List.mem_append.mpr (Or.inr (List.mem_map.mpr ⟨r, hr, hri⟩)))
      have hnb : ¬ ∃ r ∈ rows, r.id = b.id := by
        rcases mem_chainIterAux _ _ _ hb with ⟨hn, _⟩
        intro ⟨r, hr, hri⟩
        exact hn (List.mem_append.mpr (Or.inr (List.mem_map.mpr ⟨r, hr, hri⟩)))
      rw [firstIdx_succ hna, firstIdx_succ hnb]
      rcases hab with h | ⟨h1, h2⟩
      · exact Or.inl (by omega)
      · exact Or.inr ⟨by omega, h2⟩
    · -- across: head-level elements come before deeper-level elements
      intro a ha b hb
      have h0a := @firstIdx_zero _ rest _ (mem_headBucket ha).1
      have hnb : ¬ ∃ r ∈ rows, r.id = b.id := by
        rcases mem_chainIterAux _ _ _ hb with ⟨hn, _⟩
        intro ⟨r, hr, hri⟩
        exact hn (List.mem_append.mpr (Or.inr (List.mem_map.mpr ⟨r, hr, hri⟩)))
      rw [h0a, firstIdx_succ hnb]
      exact Or.inl (by omega)

/-- `chainIter` specialisation of `chainIterAux_pairwise`. -/
theorem chainIter_pairwise (ls : List (List NinjutsuInfo)) :
    (chainIter ls).Pairwise (fun a b =>
      firstIdx a.id ls < firstIdx b.id ls ∨
      (firstIdx a.id ls = firstIdx b.id ls ∧ a.id < b.id)) :=
  chainIterAux_pairwise ls []

/-- No id is repeated across the chain iteration. -/
theorem chainIter_ids_nodup (ls : List (List NinjutsuInfo)) :
    ((chainIter ls).map (fun e => e.id)).Nodup := by
  refine List.pairwise_map.mpr ((chainIter_pairwise ls).imp ?_)
  intro a b hab heq
  rw [heq] at hab
  rcases hab with h | ⟨_, h⟩ <;> exact absurd h (by omega)

/-- The chain iteration is no longer than the per-level results combined. -/
theorem chainIterAux_length_le :
    ∀ (ls : List (List NinjutsuInfo)) (seen : List Nat),
      (chainIterAux ls seen).length ≤ (ls.map List.length).sum := by
  intro ls
  induction ls with
  | nil => intro seen; simp [chainIterAux]
  | cons rows rest ih =>
    intro seen
    rw [chainIterAux, List.length_append]
    have h1 : (((sortedIds rows).filter (fun i => !seen.contains i)).filterMap
        (objVal rows)).length ≤ rows.length := by
      calc (((sortedIds rows).filter (fun i => !seen.contains i)).filterMap
            (objVal rows)).length
          ≤ ((sortedIds rows).filter (fun i => !seen.contains i)).length :=
            List.length_filterMap_le _ _
        _ ≤ (sortedIds rows).length := List.length_filter_le _ _
        _ = ((rows.map (fun r => r.id)).dedup).length :=
            (List.perm_insertionSort _ _).length_eq
        _ ≤ (rows.map (fun r => r.id)).length := (List.dedup_sublist _).length_le
        _ = rows.length := List.length_map _ _
    have h2 := ih (seen ++ rows.map (fun r => r.id))
    simp only [List.map_cons, List.sum_cons]
    omega

/-- Sum of a list of naturals, each at most `n`. -/
theorem sum_le_length_mul (l : List Nat) (n : Nat) (h : ∀ x ∈ l, x ≤ n) :
    l.sum ≤ l.length * n := by
  induction l with
  | nil => simp
  | cons x t ih =>
    simp only [List.sum_cons, List.length_cons]
    have hx := h x (List.mem_cons_self _ _)
    have ht := ih (fun y hy => h y (List.mem_cons_of_mem _ hy))
    rw [Nat.succ_mul]
    omega

/-- A successful per-level query returns at most `limit` rows. -/
theorem searchLevel_length_le (phonAvail : Bool) (py : String → String)
    (db : List NinjutsuInfo) (name : String) (limit : Nat) (lv : MatchLevel)
    (q : List NinjutsuInfo)
    (h : searchNinjutsuAtLevel phonAvail py db name limit lv = some q) :
    q.length ≤ limit := by
  simp only [searchNinjutsuAtLevel] at h
  cases hp : parsePattern
      (".*" ++ (getMatchInfo phonAvail py lv).getKeyword name ++ ".*") with
  | none => rw [hp] at h; simp at h
  | some re =>
    rw [hp] at h
    simp only [Option.some.injEq] at h
    rw [← h, List.length_take]
    exact min_le_left _ _

/-- Shape of a successful `queryAllLevels` run: one result list per level,
each at most `limit` long. -/
theorem queryAllLevels_spec (phonAvail : Bool) (py : String → String)
    (db : List NinjutsuInfo) (name : String) (limit : Nat) :
    ∀ (lvls : List MatchLevel) (ls : List (List NinjutsuInfo)),
      queryAllLevels phonAvail py db name limit lvls = some ls →
      ls.length = lvls.length ∧ ∀ q ∈ ls, q.length ≤ limit := by
  intro lvls
  induction lvls with
  | nil =>
    intro ls h
    simp only [queryAllLevels, Option.some.injEq] at h
    subst h
    simp
  | cons lv lvs ih =>
    intro ls h
    rw [queryAllLevels] at h
    cases h1 : searchNinjutsuAtLevel phonAvail py db name limit lv with
    | none => rw [h1] at h; simp at h
    | some q =>
      cases h2 : queryAllLevels phonAvail py db name limit lvs with
      | none => rw [h1, h2] at h; simp at h
      | some qs =>
        rw [h1, h2] at h
        simp only [Option.some.injEq] at h
        subst h
        rcases ih qs h2 with ⟨hl, hq⟩
        refine ⟨by simp [hl], ?_⟩
        intro x hx
        rcases List.mem_cons.mp hx with rfl | hx'
        · exact searchLevel_length_le _ _ _ _ _ _ _ h1
        · exact hq x hx'

/-- C2 (amended): whenever every per-level query succeeds, the sequence the
final `for(let id in res)` loop iterates over (whose prefix is rendered) is
deduplicated — no id appears twice — and is strictly sorted by the pair
(strictest level at which the id was discovered, then ascending numeric id).
Within one level's bucket the order is ascending id (the ECMAScript
integer-key enumeration order of the accumulator object), not the
store-query discovery order. -/
theorem search_order_tier_then_id (phonAvail : Bool) (py : String → String)
    (cfg : Config) (db : List NinjutsuInfo) (limitOpt : Option Nat)
    (name : String) (ls : List (List NinjutsuInfo))
    (h : queryAllLevels phonAvail py db name (limitOpt.getD cfg.searchLimit)
      (levelsUpTo cfg.matchLevel) = some ls) :
    searchIteration phonAvail py cfg db limitOpt name = some (chainIter ls) ∧
    ((chainIter ls).map (fun e => e.id)).Nodup ∧
    (chainIter ls).Pairwise (fun a b =>
      firstIdx a.id ls < firstIdx b.id ls ∨
      (firstIdx a.id ls = firstIdx b.id ls ∧ a.id < b.id)) := by
  refine ⟨?_, chainIter_ids_nodup ls, chainIter_pairwise ls⟩
  simp only [searchIteration, h, Option.map_some']

/-- Concrete instance of `search_order_tier_then_id`: two rows matching at
both `Strict` and `Normal`; ids `5` and `3` are discovered in that order but
iterated as `3, 5`, each exactly once. -/
theorem search_order_tier_then_id_witness :
    queryAllLevels false (fun s => s)
        [⟨5, "xy", "", "xy", ""⟩, ⟨3, "x!", "", "x", ""⟩] "x"
        ((some 10).getD (Config.mk "" MatchLevel.Normal 10 10 true).searchLimit)
        (levelsUpTo (Config.mk "" MatchLevel.Normal 10 10 true).matchLevel)
      = some [[⟨5, "xy", "", "xy", ""⟩, ⟨3, "x!", "", "x", ""⟩],
              [⟨5, "xy", "", "xy", ""⟩, ⟨3, "x!", "", "x", ""⟩]] ∧
    (searchIteration false (fun s => s) (Config.mk "" MatchLevel.Normal 10 10 true)
        [⟨5, "xy", "", "xy", ""⟩, ⟨3, "x!", "", "x", ""⟩] (some 10) "x"
      = some (chainIter [[⟨5, "xy", "", "xy", ""⟩, ⟨3, "x!", "", "x", ""⟩],
                         [⟨5, "xy", "", "xy", ""⟩, ⟨3, "x!", "", "x", ""⟩]]) ∧
     ((chainIter [[⟨5, "xy", "", "xy", ""⟩, ⟨3, "x!", "", "x", ""⟩],
                  [⟨5, "xy", "", "xy", ""⟩, ⟨3, "x!", "", "x", ""⟩]]).map
        (fun e => e.id)).Nodup ∧
     (chainIter [[⟨5, "xy", "", "xy", ""⟩, ⟨3, "x!", "", "x", ""⟩],
                 [⟨5, "xy", "", "xy", ""⟩, ⟨3, "x!", "", "x", ""⟩]]).Pairwise
       (fun a b =>
         firstIdx a.id [[⟨5, "xy", "", "xy", ""⟩, ⟨3, "x!", "", "x", ""⟩],
                        [⟨5, "xy", "", "xy", ""⟩, ⟨3, "x!", "", "x", ""⟩]]
           < firstIdx b.id [[⟨5, "xy", "", "xy", ""⟩, ⟨3, "x!", "", "x", ""⟩],
                        [⟨5, "xy", "", "xy", ""⟩, ⟨3, "x!", "", "x", ""⟩]] ∨
         (firstIdx a.id [[⟨5, "xy", "", "xy", ""⟩, ⟨3, "x!", "", "x", ""⟩],
                        [⟨5, "xy", "", "xy", ""⟩, ⟨3, "x!", "", "x", ""⟩]]
           = firstIdx b.id [[⟨5, "xy", "", "xy", ""⟩, ⟨3, "x!", "", "x", ""⟩],
                        [⟨5, "xy", "", "xy", ""⟩, ⟨3, "x!", "", "x", ""⟩]]
          ∧ a.id < b.id))) :=
  ⟨by decide,
   search_order_tier_then_id false (fun s => s)
     (Config.mk "" MatchLevel.Normal 10 10 true)
     [⟨5, "xy", "", "xy", ""⟩, ⟨3, "x!", "", "x", ""⟩] (some 10) "x"
     [[⟨5, "xy", "", "xy", ""⟩, ⟨3, "x!", "", "x", ""⟩],
      [⟨5, "xy", "", "xy", ""⟩, ⟨3, "x!", "", "x", ""⟩]] (by decide)⟩

/-- C4 (amended): whenever every per-level query succeeds, `searchNinjutsu`
renders exactly `min(limit, N)` entries where `N` is the length of the
deduplicated merged sequence built from the per-level queries, each of which
is itself capped at `limit`; consequently `N ≤ (#levels) · limit`.  `N` is
the count the source's `count` variable reaches, and it is *not* independent
of `limit` (see `search_count_depends_on_limit_cex`). -/
theorem search_rendered_min_and_capped (phonAvail : Bool) (py : String → String)
    (cfg : Config) (db : List NinjutsuInfo) (limitOpt : Option Nat)
    (name : String) (ls : List (List NinjutsuInfo))
    (h : queryAllLevels phonAvail py db name (limitOpt.getD cfg.searchLimit)
      (levelsUpTo cfg.matchLevel) = some ls) :
    searchNinjutsu phonAvail py cfg db limitOpt name
      = some ((chainIter ls).take (limitOpt.getD cfg.searchLimit),
          (chainIter ls).length) ∧
    ((chainIter ls).take (limitOpt.getD cfg.searchLimit)).length
      = min (limitOpt.getD cfg.searchLimit) (chainIter ls).length ∧
    (chainIter ls).length
      ≤ (levelsUpTo cfg.matchLevel).length * (limitOpt.getD cfg.searchLimit) := by
  refine ⟨?_, List.length_take _ _, ?_⟩
  · simp only [searchNinjutsu, searchIteration, h, Option.map_some']
  · rcases queryAllLevels_spec _ _ _ _ _ _ _ h with ⟨hlen, hbound⟩
    calc (chainIter ls).length
        ≤ (ls.map List.length).sum := chainIterAux_length_le ls []
      _ ≤ (ls.map List.length).length * (limitOpt.getD cfg.searchLimit) := by
          refine sum_le_length_mul _ _ ?_
          intro x hx
          rcases List.mem_map.mp hx with ⟨q, hq, rfl⟩
          exact hbound q hq
      _ = (levelsUpTo cfg.matchLevel).length * (limitOpt.getD cfg.searchLimit) := by
          rw [List.length_map, hlen]

/-- Concrete instance of `search_rendered_min_and_capped`: two matching rows
under `limit = 2` at a single level. -/
theorem search_rendered_min_and_capped_witness :
    queryAllLevels false (fun s => s)
        [⟨1, "c", "", "c", ""⟩, ⟨2, "c", "", "c", ""⟩] "c"
        ((some 2).getD (Config.mk "" MatchLevel.Strict 10 10 true).searchLimit)
        (levelsUpTo (Config.mk "" MatchLevel.Strict 10 10 true).matchLevel)
      = some [[⟨1, "c", "", "c", ""⟩, ⟨2, "c", "", "c", ""⟩]] ∧
    (searchNinjutsu false (fun s => s) (Config.mk "" MatchLevel.Strict 10 10 true)
        [⟨1, "c", "", "c", ""⟩, ⟨2, "c", "", "c", ""⟩] (some 2) "c"
      = some ((chainIter [[⟨1, "c", "", "c", ""⟩, ⟨2, "c", "", "c", ""⟩]]).take 2,
          (chainIter [[⟨1, "c", "", "c", ""⟩, ⟨2, "c", "", "c", ""⟩]]).length) ∧
     ((chainIter [[⟨1, "c", "", "c", ""⟩, ⟨2, "c", "", "c", ""⟩]]).take 2).length
      = min 2 (chainIter [[⟨1, "c", "", "c", ""⟩, ⟨2, "c", "", "c", ""⟩]]).length ∧
     (chainIter [[⟨1, "c", "", "c", ""⟩, ⟨2, "c", "", "c", ""⟩]]).length
      ≤ (levelsUpTo (Config.mk "" MatchLevel.Strict 10 10 true).matchLevel).length * 2) :=
  ⟨by decide,
   search_rendered_min_and_capped false (fun s => s)
     (Config.mk "" MatchLevel.Strict 10 10 true)
     [⟨1, "c", "", "c", ""⟩, ⟨2, "c", "", "c", ""⟩] (some 2) "c"
     [[⟨1, "c", "", "c", ""⟩, ⟨2, "c", "", "c", ""⟩]] (by decide)⟩

/-! ### C8: staleness of the phonetic field across refreshes -/

/-- One partial upsert step: every resulting row either inherits its
`namePinyin` (with its id) from a pre-existing row, or is freshly created
with an empty `namePinyin`. -/
theorem upsertPartialOne_mem (u : NinjutsuUpsert) (db : List NinjutsuInfo)
    (r : NinjutsuInfo) (h : r ∈ upsertPartialOne u db) :
    (∃ r₀ ∈ db, r₀.id = r.id ∧ r₀.namePinyin = r.namePinyin) ∨
      r.namePinyin = "" := by
  rw [upsertPartialOne] at h
  by_cases hc : db.any (fun x => x.id == u.id)
  · rw [if_pos hc] at h
    rcases List.mem_map.mp h with ⟨r₀, hr₀, hmap⟩
    by_cases hid : (r₀.id == u.id : Bool)
    · rw [if_pos hid] at hmap
      refine Or.inl ⟨r₀, hr₀, ?_, ?_⟩
      · rw [← hmap]
        show r₀.id = u.id
        simpa using hid
      · rw [← hmap]
        rfl
    · rw [if_neg hid] at hmap
      exact Or.inl ⟨r₀, hr₀, by rw [hmap], by rw [hmap]⟩
  · rw [if_neg hc] at h
    rcases List.mem_append.mp h with hdb | hnew
    · exact Or.inl ⟨r, hdb, rfl, rfl⟩
    · have : r = newRow u := by simpa using hnew
      exact Or.inr (by rw [this]; rfl)

/-- Iterated partial upserts: every resulting row either inherits its
`namePinyin` (with its id) from the original catalog, or has it empty. -/
theorem upsertPartialMany_mem :
    ∀ (us : List NinjutsuUpsert) (db : List NinjutsuInfo) (r : NinjutsuInfo),
      r ∈ upsertPartialMany us db →
      (∃ r₀ ∈ db, r₀.id = r.id ∧ r₀.namePinyin = r.namePinyin) ∨
        r.namePinyin = "" := by
  intro us
  induction us with
  | nil => intro db r h; exact Or.inl ⟨r, h, rfl, rfl⟩
  | cons u us ih =>
    intro db r h
    have h' : r ∈ upsertPartialMany us (upsertPartialOne u db) := h
    rcases ih _ r h' with ⟨r₁, hr₁, hid, hpy⟩ | hpy
    · rcases upsertPartialOne_mem u db r₁ hr₁ with ⟨r₀, hr₀, hid₀, hpy₀⟩ | hpy₀
      · exact Or.inl ⟨r₀, hr₀, hid₀.trans hid, hpy₀.trans hpy⟩
      · exact Or.inr (hpy.symm.trans hpy₀)
    · exact Or.inr hpy

/-- Iterated full upserts: every resulting row is one of the upserted rows,
or an untouched original row whose id none of the upserted rows carries. -/
theorem upsertFullMany_mem :
    ∀ (us : List NinjutsuInfo) (db : List NinjutsuInfo) (r : NinjutsuInfo),
      r ∈ upsertFullMany us db →
      r ∈ us ∨ (r ∈ db ∧ ∀ u ∈ us, u.id ≠ r.id) := by
  intro us
  induction us with
  | nil => intro db r h; exact Or.inr ⟨h, by simp⟩
  | cons u us ih =>
    intro db r h
    have h' : r ∈ upsertFullMany us (upsertFullOne u db) := h
    rcases ih _ r h' with hin | ⟨hdb, hnone⟩
    · exact Or.inl (List.mem_cons_of_mem _ hin)
    · rw [upsertFullOne] at hdb
      by_cases hc : db.any (fun x => x.id == u.id)
      · rw [if_pos hc] at hdb
        rcases List.mem_map.mp hdb with ⟨r₀, hr₀, hmap⟩
        by_cases hid : (r₀.id == u.id : Bool)
        · rw [if_pos hid] at hmap
          exact Or.inl (hmap ▸ List.mem_cons_self _ _)
        · rw [if_neg hid] at hmap
          refine Or.inr ⟨hmap ▸ hr₀, ?_⟩
          intro v hv
          rcases List.mem_cons.mp hv with rfl | hv'
          · intro he
            have : r₀.id = v.id := by rw [hmap, he]
            exact hid (by simpa using this)
          · exact hnone v hv'
      · rw [if_neg hc] at hdb
        rcases List.mem_append.mp hdb with hdb' | hu
        · refine Or.inr ⟨hdb', ?_⟩
          intro v hv
          rcases List.mem_cons.mp hv with rfl | hv'
          · intro he
            have hno : ¬ ∃ x ∈ db, x.id = v.id := by
              simpa [List.any_eq_true] using hc
            exact hno ⟨r, hdb', he.symm⟩
          · exact hnone v hv'
        · have : r = u := by simpa using hu
          exact Or.inl (this ▸ List.mem_cons_self _ _)

/-- A row with empty `namePinyin` always has its recomputed version in the
backfill's upsert batch. -/
theorem backfill_batch_covers (py : String → String) (db₁ : List NinjutsuInfo)
    (r : NinjutsuInfo) (hr : r ∈ db₁) (hpy : r.namePinyin = "") :
    ∃ u ∈ (db₁.filter (fun x => x.namePinyin == "")).map
        (fun x => { x with namePinyin := py x.nameNoPunctuation }),
      u.id = r.id :=
  ⟨{ r with namePinyin := py r.nameNoPunctuation },
   List.mem_map.mpr ⟨r, List.mem_filter.mpr ⟨hr, by simp [hpy]⟩, rfl⟩, rfl⟩

/-- C8 (amended): after a refresh followed by the phonetic backfill, every
stored entry's `phoneticName` is either consistent with its current
`normalizedName` under the transform, or is a non-empty value carried over
unchanged (for its id) from before the refresh — possibly the transform of
an older name, since the refresh upsert does not write `namePinyin` and
therefore does not re-blank it (see `phonetic_stale_after_rename_cex`).
Freshly created entries start with `namePinyin = ""` and become consistent
at the backfill. -/
theorem phonetic_consistent_or_inherited (py : String → String)
    (src : List NinjutsuSourceRow) (db : List NinjutsuInfo) (r : NinjutsuInfo)
    (h : r ∈ updateDatabasePinyin py (updateDatabase src db)) :
    r.namePinyin = py r.nameNoPunctuation ∨
    ∃ r₀ ∈ db, r₀.id = r.id ∧ r₀.namePinyin = r.namePinyin ∧
      r₀.namePinyin ≠ "" := by
  simp only [updateDatabasePinyin] at h
  rcases upsertFullMany_mem _ _ r h with hin | ⟨hdb, hnone⟩
  · rcases List.mem_map.mp hin with ⟨x, hx, hmap⟩
    left
    rw [← hmap]
  · have hne : r.namePinyin ≠ "" := by
      intro he
      rcases backfill_batch_covers py _ r hdb he with ⟨v, hv, hvid⟩
      exact hnone v hv hvid
    rcases upsertPartialMany_mem _ db r hdb with ⟨r₀, hr₀, hid, hpy⟩ | hpy
    · exact Or.inr ⟨r₀, hr₀, hid, hpy, by rw [hpy]; exact hne⟩
    · exact absurd hpy hne

/-- Concrete instance of `phonetic_consistent_or_inherited`: the renamed
entry of `phonetic_stale_after_rename_cex` falls on the inherited branch. -/
theorem phonetic_consistent_or_inherited_witness :
    ((⟨1, "b", "d", "b", "ya"⟩ : NinjutsuInfo) ∈
      updateDatabasePinyin (getPinyin (fun s => ["y", s]))
        (updateDatabase [⟨1, "b", "d"⟩] [⟨1, "a", "d", "a", "ya"⟩])) ∧
    ((⟨1, "b", "d", "b", "ya"⟩ : NinjutsuInfo).namePinyin
        = getPinyin (fun s => ["y", s])
            (⟨1, "b", "d", "b", "ya"⟩ : NinjutsuInfo).nameNoPunctuation ∨
      ∃ r₀ ∈ [(⟨1, "a", "d", "a", "ya"⟩ : NinjutsuInfo)],
        r₀.id = (⟨1, "b", "d", "b", "ya"⟩ : NinjutsuInfo).id ∧
        r₀.namePinyin = (⟨1, "b", "d", "b", "ya"⟩ : NinjutsuInfo).namePinyin ∧
        r₀.namePinyin ≠ "") :=
  ⟨by decide,
   phonetic_consistent_or_inherited (getPinyin (fun s => ["y", s]))
     [⟨1, "b", "d"⟩] [⟨1, "a", "d", "a", "ya"⟩] ⟨1, "b", "d", "b", "ya"⟩
     (by decide)⟩

/-! ### C9: the backfill as a per-row map, and its idempotence -/

/-- The pointwise effect of folding a batch of full upserts: the last batch
row with a matching id wins. -/
def applyUpserts (us : List NinjutsuInfo) (r : NinjutsuInfo) : NinjutsuInfo :=
  us.foldl (fun r u => if r.id == u.id then u else r) r

/-- A full upsert whose id is already present is a per-row replacement. -/
theorem upsertFullOne_map (u : NinjutsuInfo) (db : List NinjutsuInfo)
    (h : ∃ x ∈ db, x.id = u.id) :
    upsertFullOne u db = db.map (fun r => if r.id == u.id then u else r) := by
  rw [upsertFullOne, if_pos]
  rcases h with ⟨x, hx, hxe⟩
  exact List.any_eq_true.mpr ⟨x, hx, by simp [hxe]⟩

/-- A batch of full upserts, all of whose ids are present, is a map. -/
theorem upsertFullMany_map :
    ∀ (us : List NinjutsuInfo) (db : List NinjutsuInfo),
      (∀ u ∈ us, ∃ x ∈ db, x.id = u.id) →
      upsertFullMany us db = db.map (applyUpserts us) := by
  intro us
  induction us with
  | nil =>
    intro db h
    exact (List.map_id' db).symm
  | cons u us ih =>
    intro db h
    have hu := h u (List.mem_cons_self _ _)
    have h1 : upsertFullMany (u :: us) db
        = upsertFullMany us (upsertFullOne u db) := rfl
    rw [h1, upsertFullOne_map u db hu, ih, List.map_map]
    · rfl
    · intro v hv
      rcases h v (List.mem_cons_of_mem _ hv) with ⟨x, hx, hxe⟩
      refine ⟨if x.id == u.id then u else x, List.mem_map.mpr ⟨x, hx, rfl⟩, ?_⟩
      by_cases hb : (x.id == u.id : Bool)
      · rw [if_pos hb]
        have hxu : x.id = u.id := by simpa using hb
        rw [← hxu]
        exact hxe
      · rw [if_neg hb]
        exact hxe

/-- A batch none of whose ids matches leaves the row unchanged. -/
theorem applyUpserts_skip :
    ∀ (us : List NinjutsuInfo) (r : NinjutsuInfo),
      (∀ u ∈ us, u.id ≠ r.id) → applyUpserts us r = r := by
  intro us
  induction us with
  | nil => intro r h; rfl
  | cons u us ih =>
    intro r h
    have h1 : applyUpserts (u :: us) r
        = applyUpserts us (if r.id == u.id then u else r) := rfl
    have hne : ¬ (r.id == u.id : Bool) := by
      simp only [beq_iff_eq]
      intro he
      exact h u (List.mem_cons_self _ _) he.symm
    rw [h1, if_neg hne]
    exact ih r (fun v hv => h v (List.mem_cons_of_mem _ hv))

/-- With ids unique in the catalog, applying the backfill batch to a stored
row fills its `namePinyin` exactly when it was empty. -/
theorem applyUpserts_backfill (py : String → String) :
    ∀ db : List NinjutsuInfo, (db.map (fun r => r.id)).Nodup →
      ∀ r ∈ db,
        applyUpserts ((db.filter (fun x => x.namePinyin == "")).map
          (fun x => { x with namePinyin := py x.nameNoPunctuation })) r
        = backfillRow py r := by
  intro db
  induction db with
  | nil => intro _ r h; simp at h
  | cons d ds ih =>
    intro hnd r hr
    rw [List.map_cons, List.nodup_cons] at hnd
    have hdid : d.id ∉ ds.map (fun r => r.id) := hnd.1
    have hnd' := hnd.2
    have hskip : ∀ u ∈ (ds.filter (fun x => x.namePinyin == "")).map
        (fun x => { x with namePinyin := py x.nameNoPunctuation }),
        u.id ≠ d.id := by
      intro u hu
      rcases List.mem_map.mp hu with ⟨x, hx, rfl⟩
      have hxd : x ∈ ds := (List.mem_filter.mp hx).1
      show x.id ≠ d.id
      intro he
      exact hdid (List.mem_map.mpr ⟨x, hxd, he⟩)
    by_cases hd : (d.namePinyin == "" : Bool)
    · have hdata : List.filter (fun x => x.namePinyin == "") (d :: ds)
          = d :: List.filter (fun x => x.namePinyin == "") ds := by
        rw [List.filter_cons, if_pos hd]
      rw [hdata, List.map_cons]
      rcases List.mem_cons.mp hr with rfl | hr'
      · have h1 : applyUpserts
            ({ r with namePinyin := py r.nameNoPunctuation } ::
              (ds.filter (fun x => x.namePinyin == "")).map
                (fun x => { x with namePinyin := py x.nameNoPunctuation })) r
            = applyUpserts ((ds.filter (fun x => x.namePinyin == "")).map
                (fun x => { x with namePinyin := py x.nameNoPunctuation }))
              { r with namePinyin := py r.nameNoPunctuation } := by
          show applyUpserts _ (if r.id == r.id then _ else r) = _
          rw [if_pos (by simp)]
        rw [h1, applyUpserts_skip _
            { r with namePinyin := py r.nameNoPunctuation } hskip,
          backfillRow, if_pos (by simpa using hd)]
      · have h1 : applyUpserts
            ({ d with namePinyin := py d.nameNoPunctuation } ::
              (ds.filter (fun x => x.namePinyin == "")).map
                (fun x => { x with namePinyin := py x.nameNoPunctuation })) r
            = applyUpserts ((ds.filter (fun x => x.namePinyin == "")).map
                (fun x => { x with namePinyin := py x.nameNoPunctuation })) r := by
          show applyUpserts _ (if r.id == d.id then _ else r) = _
          rw [if_neg]
          simp only [beq_iff_eq]
          intro he
          exact hdid (List.mem_map.mpr ⟨r, hr', he⟩)
        rw [h1]
        exact ih hnd' r hr'
    · have hdata : List.filter (fun x => x.namePinyin == "") (d :: ds)
          = List.filter (fun x => x.namePinyin == "") ds := by
        rw [List.filter_cons, if_neg hd]
      rw [hdata]
      rcases List.mem_cons.mp hr with rfl | hr'
      · rw [applyUpserts_skip _ _ hskip, backfillRow,
          if_neg (by simpa using hd)]
      · exact ih hnd' r hr'

/-- With unique ids, one backfill run is the per-row map of `backfillRow`. -/
theorem updateDatabasePinyin_map (py : String → String) (db : List NinjutsuInfo)
    (hnd : (db.map (fun r => r.id)).Nodup) :
    updateDatabasePinyin py db = db.map (backfillRow py) := by
  simp only [updateDatabasePinyin]
  rw [upsertFullMany_map]
  · exact List.map_congr_left (fun r hr => applyUpserts_backfill py db hnd r hr)
  · intro u hu
    rcases List.mem_map.mp hu with ⟨x, hx, rfl⟩
    exact ⟨x, (List.mem_filter.mp hx).1, rfl⟩

/-- C9 (amended): with ids unique (the store's primary-key invariant), the
backfill writes only `namePinyin` and only on the rows where it is empty
(it is the per-row map of `backfillRow`); it is idempotent — a second run
changes nothing; and after a successful run a row can keep an empty
`namePinyin` only when the phonetic transform of its `nameNoPunctuation` is
itself empty (see `backfill_leaves_empty_cex`). -/
theorem backfill_idempotent_frame (py : String → String) (db : List NinjutsuInfo)
    (hnd : (db.map (fun r => r.id)).Nodup) :
    updateDatabasePinyin py db = db.map (backfillRow py) ∧
    updateDatabasePinyin py (updateDatabasePinyin py db)
      = updateDatabasePinyin py db ∧
    ∀ r ∈ updateDatabasePinyin py db, r.namePinyin = "" →
      py r.nameNoPunctuation = "" := by
  have h1 := updateDatabasePinyin_map py db hnd
  have hbfid : ∀ r : NinjutsuInfo, (backfillRow py r).id = r.id := by
    intro r
    rw [backfillRow]
    by_cases h : r.namePinyin = "" <;> simp [h]
  refine ⟨h1, ?_, ?_⟩
  · have hnd2 : ((db.map (backfillRow py)).map (fun r => r.id)).Nodup := by
      rw [List.map_map]
      have hfe : ((fun r => r.id) ∘ backfillRow py) = (fun r : NinjutsuInfo => r.id) := by
        funext r
        exact hbfid r
      rw [hfe]
      exact hnd
    rw [h1, updateDatabasePinyin_map py _ hnd2, List.map_map]
    refine List.map_congr_left ?_
    intro r hr
    show backfillRow py (backfillRow py r) = backfillRow py r
    by_cases h : r.namePinyin = ""
    · have hfill : backfillRow py r = { r with namePinyin := py r.nameNoPunctuation } := by
        rw [backfillRow, if_pos h]
      rw [hfill, backfillRow]
      by_cases h2 : py r.nameNoPunctuation = ""
      · simp [h2]
      · simp [h2]
    · have hkeep : backfillRow py r = r := by
        rw [backfillRow, if_neg h]
      rw [hkeep, hkeep]
  · intro r hr hempty
    rw [h1] at hr
    rcases List.mem_map.mp hr with ⟨x, hx, rfl⟩
    by_cases h : x.namePinyin = ""
    · have hfill : backfillRow py x = { x with namePinyin := py x.nameNoPunctuation } := by
        rw [backfillRow, if_pos h]
      rw [hfill] at hempty ⊢
      exact hempty
    · have hkeep : backfillRow py x = x := by
        rw [backfillRow, if_neg h]
      rw [hkeep] at hempty
      exact absurd hempty h

/-- Concrete instance of `backfill_idempotent_frame`: a two-row catalog with
one pending and one already-computed phonetic key. -/
theorem backfill_idempotent_frame_witness :
    (([⟨1, "a", "d", "a", ""⟩, ⟨2, "b!", "d", "b", "yb"⟩] :
        List NinjutsuInfo).map (fun r => r.id)).Nodup ∧
    (updateDatabasePinyin (fun s => String.append "y" s)
        [⟨1, "a", "d", "a", ""⟩, ⟨2, "b!", "d", "b", "yb"⟩]
      = ([⟨1, "a", "d", "a", ""⟩, ⟨2, "b!", "d", "b", "yb"⟩] :
          List NinjutsuInfo).map (backfillRow (fun s => String.append "y" s)) ∧
     updateDatabasePinyin (fun s => String.append "y" s)
        (updateDatabasePinyin (fun s => String.append "y" s)
          [⟨1, "a", "d", "a", ""⟩, ⟨2, "b!", "d", "b", "yb"⟩])
      = updateDatabasePinyin (fun s => String.append "y" s)
          [⟨1, "a", "d", "a", ""⟩, ⟨2, "b!", "d", "b", "yb"⟩] ∧
     ∀ r ∈ updateDatabasePinyin (fun s => String.append "y" s)
        [⟨1, "a", "d", "a", ""⟩, ⟨2, "b!", "d", "b", "yb"⟩],
       r.namePinyin = "" → String.append "y" r.nameNoPunctuation = "") :=
  ⟨by decide,
   backfill_idempotent_frame (fun s => String.append "y" s)
     [⟨1, "a", "d", "a", ""⟩, ⟨2, "b!", "d", "b", "yb"⟩] (by decide)⟩

/-- Concrete instance of `resolve_first_hit_wins`: the entry `"a!"` misses at
`Strict` for the query `"a"` but hits at `Normal`, so resolution returns the
`Normal`-level answer. -/
theorem resolve_first_hit_wins_witness :
    tryGetNinjutsu false (fun s => s)
        (Config.mk "" MatchLevel.Normal 10 10 true)
        [⟨1, "a!", "d", "a", ""⟩] "a"
      = tryGetNinjutsuAtLevel false (fun s => s) [⟨1, "a!", "d", "a", ""⟩] "a"
          MatchLevel.Normal :=
  (resolve_first_hit_wins false (fun s => s)
      (Config.mk "" MatchLevel.Normal 10 10 true)
      [⟨1, "a!", "d", "a", ""⟩] "a").2
    MatchLevel.Normal (by decide) (by decide) (by decide)
